import Mathlib

/-!
Shallow embedding of the validator combinators of the shapes repository
(file src/validators.ts) together with a dynamic-call model for the one
operation in that file that can raise at runtime (the method access
valid.has inside setOf).  JS runtime values are modelled by the inductive
type Value below; validators are Lean functions from Value to Value, so a
total Lean function models a JS function that never throws.
-/

namespace Shapes

/-- JS numbers as the validators observe them: an integer-valued number or
NaN.  The typeof operator classifies both as "number", and SameValueZero
equality (used by JS Set membership) treats NaN as equal to itself, which
is what derived decidable equality on this type gives. -/
inductive JSNum where
  | int : Int → JSNum
  | nan : JSNum
deriving DecidableEq

/-- A runtime JS value.  Arrays, plain objects and Sets carry their
elements structurally; obj carries the own enumerable string-keyed fields
in property order; jsset carries the Set elements in insertion order.
Functions are opaque references tagged by a number: the validators never
inspect a function value other than by calling it or by a method access
on it, and the one method access that occurs (valid.has in setOf) fails on
every function. -/
inductive Value where
  | undefined : Value
  | null : Value
  | bool : Bool → Value
  | num : JSNum → Value
  | str : String → Value
  | arr : List Value → Value
  | obj : List (String × Value) → Value
  | jsset : List Value → Value
  | fn : Nat → Value

mutual

/-- Structural equality of modelled values, which on primitives coincides
with the SameValueZero comparison that JS Set membership uses. -/
def Value.beq : Value → Value → Bool
  | .undefined, .undefined => true
  | .null, .null => true
  | .bool a, .bool b => a == b
  | .num a, .num b => a == b
  | .str a, .str b => a == b
  | .arr a, .arr b => Value.beqList a b
  | .obj a, .obj b => Value.beqFields a b
  | .jsset a, .jsset b => Value.beqList a b
  | .fn a, .fn b => a == b
  | _, _ => false

/-- Elementwise equality of value lists. -/
def Value.beqList : List Value → List Value → Bool
  | [], [] => true
  | x :: xs, y :: ys => Value.beq x y && Value.beqList xs ys
  | _, _ => false

/-- Elementwise equality of field lists. -/
def Value.beqFields : List (String × Value) → List (String × Value) → Bool
  | [], [] => true
  | (n, x) :: xs, (m, y) :: ys => n == m && Value.beq x y && Value.beqFields xs ys
  | _, _ => false

end

/-- On lists whose elements decide equality through Value.beq, the list
comparison decides list equality. -/
theorem Value.beqList_iff_of (xs : List Value)
    (h : ∀ x ∈ xs, ∀ b, (Value.beq x b = true ↔ x = b)) :
    ∀ ys, Value.beqList xs ys = true ↔ xs = ys := by
  induction xs with
  | nil => intro ys; cases ys <;> simp [Value.beqList]
  | cons x xs ih =>
    intro ys
    cases ys with
    | nil => simp [Value.beqList]
    | cons y ys =>
      have hx := h x (List.mem_cons_self x xs) y
      have ihx := ih (fun z hz b => h z (List.mem_cons_of_mem x hz) b) ys
      simp [Value.beqList, hx, ihx]

/-- On field lists whose values decide equality through Value.beq, the
field comparison decides field-list equality. -/
theorem Value.beqFields_iff_of (fs : List (String × Value))
    (h : ∀ p ∈ fs, ∀ b, (Value.beq p.2 b = true ↔ p.2 = b)) :
    ∀ gs, Value.beqFields fs gs = true ↔ fs = gs := by
  induction fs with
  | nil => intro gs; cases gs <;> simp [Value.beqFields]
  | cons p fs ih =>
    intro gs
    cases gs with
    | nil => simp [Value.beqFields]
    | cons q gs =>
      obtain ⟨n, x⟩ := p
      obtain ⟨m, y⟩ := q
      have hx := h (n, x) (List.mem_cons_self _ fs) y
      have ihx := ih (fun z hz b => h z (List.mem_cons_of_mem _ hz) b) gs
      simp [Value.beqFields, hx, ihx, and_assoc]

/-- Bounded form of the correctness of Value.beq, by strong induction on
size. -/
theorem Value.beq_iff_bounded :
    ∀ (n : Nat) (a b : Value), sizeOf a < n → (Value.beq a b = true ↔ a = b) := by
  intro n
  induction n with
  | zero => intro a b h; exact absurd h (Nat.not_lt_zero _)
  | succ n ih =>
    intro a b h
    cases a <;> cases b <;> simp_all [Value.beq]
    case arr.arr xs ys =>
      refine Value.beqList_iff_of xs (fun x hx b => ih x b ?_) ys
      have h1 := List.sizeOf_lt_of_mem hx
      omega
    case obj.obj fs gs =>
      refine Value.beqFields_iff_of fs (fun p hp b => ih p.2 b ?_) gs
      have h1 := List.sizeOf_lt_of_mem hp
      obtain ⟨pn, pv⟩ := p
      simp at h1 ⊢
      omega
    case jsset.jsset xs ys =>
      refine Value.beqList_iff_of xs (fun x hx b => ih x b ?_) ys
      have h1 := List.sizeOf_lt_of_mem hx
      omega

/-- Value.beq decides equality of modelled values. -/
theorem Value.beq_iff (a b : Value) : Value.beq a b = true ↔ a = b :=
  Value.beq_iff_bounded (sizeOf a + 1) a b (Nat.lt_succ_self _)

instance : DecidableEq Value := fun a b => decidable_of_iff _ (Value.beq_iff a b)

/-- The JS typeof operator on modelled values. -/
def typeof : Value → String
  | .undefined => "undefined"
  | .null => "object"
  | .bool _ => "boolean"
  | .num _ => "number"
  | .str _ => "string"
  | .arr _ => "object"
  | .obj _ => "object"
  | .jsset _ => "object"
  | .fn _ => "function"

/-- Property read source[name] on a field list: the value of the first
field with the given name, or undefined when absent.  JS objects never
hold two fields of the same name, so first-match lookup is exact. -/
def getField (fields : List (String × Value)) (name : String) : Value :=
  match fields.find? (fun p => p.1 == name) with
  | some p => p.2
  | none => .undefined

/-- Own enumerable properties of a value, as collected by object spread.
Plain objects contribute their fields; an array contributes its elements
under the index keys "0", "1", ...; a primitive string would contribute
its characters under index keys; null, undefined, numbers, booleans,
functions and Sets contribute nothing. -/
def ownFields : Value → List (String × Value)
  | .obj fs => fs
  | .arr xs => xs.enum.map (fun p => (toString p.1, p.2))
  | .str s => s.data.enum.map (fun p => (toString p.1, Value.str (String.mk [p.2])))
  | _ => []

/-- JS Set.add: append the element unless an equal one is already present
(SameValueZero membership), preserving insertion order. -/
def jsAdd (out : List Value) (v : Value) : List Value :=
  if v ∈ out then out else out ++ [v]

/-- The Set constructor applied to a list of elements: insert each in
order, dropping duplicates. -/
def jsNewSet (xs : List Value) : List Value :=
  xs.foldl jsAdd []

/-- From src/validators.ts, record: the working source is the spread of
the input when typeof gives "object", and empty otherwise. -/
def sourceFields (maybeValues : Value) : List (String × Value) :=
  if typeof maybeValues = "object" then ownFields maybeValues else []

/-- From src/validators.ts, record(spec): for every field name of spec in
declaration order, apply that field validator to source[name] and assign
the result to the same name in a fresh output object. -/
def record (spec : List (String × (Value → Value))) : Value → Value :=
  fun maybeValues =>
    Value.obj (spec.map (fun p => (p.1, p.2 (getField (sourceFields maybeValues) p.1))))

/-- From src/validators.ts, either(valid): build the membership Set from
the allowed list, remember valid[0] as the default, and on invocation
return the input when it is a member, the default otherwise.  On an empty
list the JS read valid[0] gives undefined, modelled by headD. -/
def either (valid : List Value) : Value → Value :=
  fun value =>
    if value ∈ jsNewSet valid then value else valid.headD .undefined

/-- From src/validators.ts, string(initial): pass the input through when
typeof gives "string", return the closed-over default otherwise. -/
def string (initial : Value) : Value → Value :=
  fun value =>
    if typeof value = "string" then value else initial

/-- From src/validators.ts, number(initial): pass the input through when
typeof gives "number", return the closed-over default otherwise. -/
def number (initial : Value) : Value → Value :=
  fun value =>
    if typeof value = "number" then value else initial

/-- From src/validators.ts, set(itemCheck): on an array input, add
itemCheck of every element to a fresh Set in order, then return
Array.from of that Set; on any other input return the empty array. -/
def set (itemCheck : Value → Value) : Value → Value :=
  fun values =>
    match values with
    | .arr vs => .arr (vs.foldl (fun out value => jsAdd out (itemCheck value)) [])
    | _ => .arr []

/-- From src/validators.ts, maybe(validate): the loose comparison
value == null holds exactly for null and undefined, in which case the
result is undefined without calling the wrapped validator; otherwise
delegate. -/
def maybe (validate : Value → Value) : Value → Value :=
  fun value =>
    if value = .null ∨ value = .undefined then .undefined else validate value

/-- From src/validators.ts, listOf(cast): map the element cast over an
array input; return the empty array on any other input. -/
def listOf (cast : Value → Value) : Value → Value :=
  fun value =>
    match value with
    | .arr xs => .arr (xs.map cast)
    | _ => .arr []

/-- Loop body of setOf in src/validators.ts: keep the element when the
closed-over Set of allowed values contains it. -/
def setOfLoop (valid : List Value) (values : List Value) (v : Value) : List Value :=
  if v ∈ valid then jsAdd values v else values

/-- From src/validators.ts, setOf(valid): the factory argument is a Set
of allowed values (not an element validator).  On an array input, insert
every element that the allowed Set contains into a fresh result Set; on
any other input return the empty Set. -/
def setOf (valid : List Value) : Value → Value :=
  fun value =>
    match value with
    | .arr vs => .jsset (vs.foldl (setOfLoop valid) [])
    | _ => .jsset []

/-- From src/validators.ts, always(value): ignore the input. -/
def always (value : Value) : Value → Value :=
  fun _ => value

/-- Dynamic semantics of the method call valid.has(v) for an arbitrary
runtime value in the valid position: Set membership when the receiver is
an actual Set, and a TypeError for every other receiver, in particular
for a function such as a validator returned by either. -/
def jsHas (valid : Value) (v : Value) : Except String Bool :=
  match valid with
  | .jsset xs => .ok (decide (v ∈ xs))
  | _ => .error "TypeError: valid.has is not a function"

/-- Loop body of setOf under the dynamic-call model: the membership test
goes through jsHas and can therefore raise. -/
def setOfCallLoop (valid : Value) (values : List Value) (v : Value) :
    Except String (List Value) := do
  let b ← jsHas valid v
  pure (if b then jsAdd values v else values)

/-- The validator returned by setOf under the dynamic-call model: the
closed-over valid is an arbitrary runtime value, and the membership test
inside the array loop is the fallible jsHas. -/
def setOfCall (valid : Value) : Value → Except String Value :=
  fun value =>
    match value with
    | .arr vs => (vs.foldlM (setOfCallLoop valid) []).map Value.jsset
    | _ => .ok (.jsset [])

/-- First-occurrence deduplication: keep each element of the list at its
first position and drop all later equal occurrences.  This is the
independent description of what building a JS Set from a list and
converting back with Array.from produces. -/
def dedupFirst : List Value → List Value
  | [] => []
  | x :: xs => x :: dedupFirst (xs.filter (fun y => y != x))
termination_by l => l.length
decreasing_by
  simp_wf
  exact Nat.lt_succ_of_le (List.length_filter_le _ _)

/-- Membership after a single Set.add: the old members plus the added
element. -/
theorem mem_jsAdd (acc : List Value) (x v : Value) :
    v ∈ jsAdd acc x ↔ v ∈ acc ∨ v = x := by
  by_cases h : x ∈ acc
  · simp only [jsAdd, if_pos h]
    constructor
    · exact Or.inl
    · rintro (hv | rfl)
      · exact hv
      · exact h
  · simp [jsAdd, if_neg h]

/-- Membership in a fold of Set.add calls: the accumulated members plus
the members of the list folded in. -/
theorem mem_foldl_jsAdd (L : List Value) (acc : List Value) (v : Value) :
    v ∈ L.foldl jsAdd acc ↔ v ∈ acc ∨ v ∈ L := by
  induction L generalizing acc with
  | nil => simp
  | cons x L ih => simp [List.foldl_cons, ih, mem_jsAdd, or_assoc]

/-- The Set built from a list has exactly the members of the list. -/
theorem mem_jsNewSet (A : List Value) (v : Value) : v ∈ jsNewSet A ↔ v ∈ A := by
  simp [jsNewSet, mem_foldl_jsAdd]

/-- Unfolding of a field lookup on a nonempty field list. -/
theorem getField_cons (f : String × Value) (fs : List (String × Value)) (name : String) :
    getField (f :: fs) name = if f.1 = name then f.2 else getField fs name := by
  by_cases h : f.1 = name <;> simp [getField, List.find?_cons, h]

/-- Looking up a spec field name in an object built from spec by mapping
a value over every entry returns the mapped value of that entry, provided
spec declares no duplicate field names. -/
theorem getField_map_spec (spec : List (String × (Value → Value)))
    (g : String × (Value → Value) → Value)
    (hnd : (spec.map Prod.fst).Nodup)
    (p : String × (Value → Value)) (hp : p ∈ spec) :
    getField (spec.map (fun q => (q.1, g q))) p.1 = g p := by
  induction spec with
  | nil => cases hp
  | cons q spec ih =>
    rw [List.map_cons, getField_cons]
    rcases List.mem_cons.mp hp with rfl | hp
    · simp
    · have hq : q.1 ∉ spec.map Prod.fst := (List.nodup_cons.mp hnd).1
      have hne : ¬ q.1 = p.1 := by
        intro he
        exact hq (he ▸ List.mem_map_of_mem Prod.fst hp)
      rw [if_neg hne]
      exact ih (List.nodup_cons.mp hnd).2 hp

/-- The dynamic loop body of setOf reduces to the pure one whenever the
closed-over valid is an actual Set. -/
theorem setOfCallLoop_ok (xs : List Value) (values : List Value) (v : Value) :
    setOfCallLoop (.jsset xs) values v = Except.ok (setOfLoop xs values v) := by
  by_cases hv : v ∈ xs <;> simp [setOfCallLoop, setOfLoop, jsHas, hv]

/-- Unfolding of a monadic fold over a nonempty list. -/
theorem foldlM_cons_eq {m : Type → Type} [Monad m] (g : List Value → Value → m (List Value))
    (acc : List Value) (v : Value) (vs : List Value) :
    (v :: vs).foldlM g acc = g acc v >>= fun b => vs.foldlM g b := rfl

/-- The dynamic setOf loop over an array never raises when the closed-over
valid is an actual Set, and computes the pure fold. -/
theorem foldlM_setOfCallLoop (xs : List Value) (vs : List Value) (acc : List Value) :
    vs.foldlM (setOfCallLoop (.jsset xs)) acc = Except.ok (vs.foldl (setOfLoop xs) acc) := by
  induction vs generalizing acc with
  | nil => rfl
  | cons v vs ih =>
    rw [foldlM_cons_eq, setOfCallLoop_ok, List.foldl_cons]
    exact ih (setOfLoop xs acc v)

/-- Given an actual Set of allowed values, the dynamic setOf call agrees
with the pure setOf on every input and never raises. -/
theorem setOfCall_jsset (xs : List Value) (v : Value) :
    setOfCall (.jsset xs) v = Except.ok (setOf xs v) := by
  cases v <;> try rfl
  case arr vs =>
    simp [setOfCall, setOf, foldlM_setOfCallLoop, Except.map]

/-- Unfolding of first-occurrence deduplication on a nonempty list. -/
theorem dedupFirst_cons (x : Value) (xs : List Value) :
    dedupFirst (x :: xs) = x :: dedupFirst (xs.filter (fun y => y != x)) := by
  rw [dedupFirst.eq_def]

/-- Folding Set.add over a list starting from an arbitrary accumulator
appends exactly the first occurrences of the elements not already
accumulated. -/
theorem foldl_jsAdd_dedup (L : List Value) (acc : List Value) :
    L.foldl jsAdd acc = acc ++ dedupFirst (L.filter (fun y => decide (y ∉ acc))) := by
  induction L generalizing acc with
  | nil => simp [dedupFirst]
  | cons x L ih =>
    by_cases hx : x ∈ acc
    · rw [List.foldl_cons]
      have hadd : jsAdd acc x = acc := by simp [jsAdd, hx]
      rw [hadd, ih, List.filter_cons]
      simp [hx]
    · rw [List.foldl_cons]
      have hadd : jsAdd acc x = acc ++ [x] := by simp [jsAdd, hx]
      have hc : (decide (x ∉ acc)) = true := by simpa using hx
      rw [hadd, ih, List.filter_cons, hc, if_pos rfl, dedupFirst_cons]
      have hfil : L.filter (fun y => decide (y ∉ acc ++ [x]))
          = (L.filter (fun y => decide (y ∉ acc))).filter (fun y => y != x) := by
        rw [List.filter_filter]
        refine List.filter_congr (fun y _ => ?_)
        by_cases h1 : y ∈ acc <;> by_cases h2 : y = x <;>
          simp [h1, h2, List.mem_append, bne]
      rw [hfil]
      simp

/-- C1: the claim says setOf(v) applies the element validator v to each
element and drops undefined results, with
setOf(either([undefined, "a", "b", "c"]))([1, 3, "b", {}]) equal to the
set containing only "b".  In src/validators.ts the factory argument of
setOf is a Set of allowed values, not an element validator, so handing it
the function returned by either makes the membership call valid.has raise
a TypeError on the first array element instead of producing that set.
The function value is modelled by an opaque reference, on which the
dynamic method access valid.has fails exactly as in JS. -/
theorem setOf_with_validator_argument_crashes :
    setOfCall (.fn 0) (.arr [.num (.int 1), .num (.int 3), .str "b", .obj []])
      = .error "TypeError: valid.has is not a function" := rfl

/-- C2: the claim says listOf(v) maps v over any ordered sequence or
set-like iterable.  In src/validators.ts listOf tests Array.isArray only,
so on the JS Set new Set([1, 2, 3]) with element validator
number(undefined) it returns the empty array, not [1, 2, 3] as the
repository test named handles Set (and the claim) expects. -/
theorem listOf_returns_empty_on_jsset :
    listOf (number .undefined) (.jsset [.num (.int 1), .num (.int 2), .num (.int 3)]) = .arr []
  ∧ listOf (number .undefined) (.jsset [.num (.int 1), .num (.int 2), .num (.int 3)])
      ≠ .arr [.num (.int 1), .num (.int 2), .num (.int 3)] :=
  ⟨rfl, by decide⟩

/-- C3: every validator the exported factories return is total: child
validators are total Lean functions, so each conjunct states that the
built validator returns a concrete value of its target type on every
input, and the dynamic-call conjunct states that the one fallible
operation in the file, the membership call inside setOf, never raises
once the closed-over valid is an actual Set.  The allowed list of either
is taken nonempty, as its factory type requires. -/
theorem validators_total (d : Value) (cast : Value → Value) (hd : Value) (rest : List Value)
    (xs : List Value) (spec : List (String × (Value → Value))) (v : Value) :
    (typeof (number d v) = "number" ∨ number d v = d)
  ∧ (typeof (string d v) = "string" ∨ string d v = d)
  ∧ either (hd :: rest) v ∈ hd :: rest
  ∧ (maybe cast v = .undefined ∨ maybe cast v = cast v)
  ∧ (∃ ys, listOf cast v = .arr ys)
  ∧ (∃ ys, setOf xs v = .jsset ys)
  ∧ setOfCall (.jsset xs) v = Except.ok (setOf xs v)
  ∧ (∃ fs, record spec v = .obj fs)
  ∧ always d v = d := by
  refine ⟨?_, ?_, ?_, ?_, ?_, ?_, setOfCall_jsset xs v, ⟨_, rfl⟩, rfl⟩
  · by_cases h : typeof v = "number"
    · exact Or.inl (by simp [number, h])
    · exact Or.inr (by simp [number, h])
  · by_cases h : typeof v = "string"
    · exact Or.inl (by simp [string, h])
    · exact Or.inr (by simp [string, h])
  · by_cases h : v ∈ jsNewSet (hd :: rest)
    · have hv := (mem_jsNewSet _ v).mp h
      simpa [either, if_pos h] using hv
    · have he : either (hd :: rest) v = hd := by simp [either, h]
      rw [he]
      exact List.mem_cons_self hd rest
  · by_cases h : v = .null ∨ v = .undefined
    · exact Or.inl (by simp [maybe, h])
    · exact Or.inr (by simp [maybe, h])
  · cases v <;> exact ⟨_, rfl⟩
  · cases v <;> exact ⟨_, rfl⟩

/-- C4: for every spec and every input, the object record(spec) builds
holds exactly the field names of spec, in spec order; a field of the raw
input that spec does not declare therefore never appears in the
output. -/
theorem record_whitelists_spec_fields (spec : List (String × (Value → Value))) (input : Value) :
    ∃ fs, record spec input = .obj fs ∧ fs.map Prod.fst = spec.map Prod.fst := by
  refine ⟨_, rfl, ?_⟩
  rw [List.map_map]
  rfl

/-- C5: record(spec) maps null, undefined and the empty object to the
same output, the all-defaults instance in which every declared field
holds the value of its validator applied to undefined. -/
theorem record_default_construction (spec : List (String × (Value → Value))) :
    record spec .null = record spec .undefined
  ∧ record spec .undefined = record spec (.obj [])
  ∧ record spec (.obj []) = .obj (spec.map (fun p => (p.1, p.2 .undefined))) :=
  ⟨rfl, rfl, rfl⟩

/-- C6 counterexample: the claim says arrays are treated as having no
fields present, but typeof classifies an array as "object", so record
spreads it and its index properties become visible: with the spec
declaring field "0" with validator number(5), the input [7] yields
field "0" equal to 7, which differs from the all-defaults output that
the empty object yields. -/
theorem record_spreads_array_input :
    record [("0", number (.num (.int 5)))] (.arr [.num (.int 7)])
      = .obj [("0", .num (.int 7))]
  ∧ record [("0", number (.num (.int 5)))] (.arr [.num (.int 7)])
      ≠ record [("0", number (.num (.int 5)))] (.obj []) :=
  ⟨by decide, by decide⟩

/-- C6 amended: record(spec) applied to undefined, null, a boolean, a
number, a string, or a function returns the same output as applied to
the empty object; arrays are excluded because typeof classifies them as
"object", so they are shallow-copied like plain objects and their index
properties are visible to spec fields named "0", "1", and so on. -/
theorem record_nonobject_input_defaults (spec : List (String × (Value → Value)))
    (b : Bool) (n : JSNum) (s : String) (t : Nat) :
    record spec .undefined = record spec (.obj [])
  ∧ record spec .null = record spec (.obj [])
  ∧ record spec (.bool b) = record spec (.obj [])
  ∧ record spec (.num n) = record spec (.obj [])
  ∧ record spec (.str s) = record spec (.obj [])
  ∧ record spec (.fn t) = record spec (.obj []) :=
  ⟨rfl, rfl, rfl, rfl, rfl, rfl⟩

/-- C7: for every nonempty allowed list with head d, either returns the
input unchanged when it is a member by value equality and the default d
otherwise; in particular either(A)(undefined) is d unless undefined is a
member of A. -/
theorem either_membership_or_default (d : Value) (rest : List Value) (v : Value) :
    either (d :: rest) v = if v ∈ d :: rest then v else d := by
  by_cases h : v ∈ d :: rest
  · rw [if_pos h]
    simp [either, (mem_jsNewSet (d :: rest) v).mpr h]
  · rw [if_neg h]
    have hn : v ∉ jsNewSet (d :: rest) := fun hc => h ((mem_jsNewSet _ v).mp hc)
    simp [either, hn]

/-- C8: number(d) passes every numeric input through, NaN included since
the nan case is an instance of the quantified numeric argument, and
returns d verbatim on every other input, enumerated by the remaining
value constructors; in particular a numeric string falls in the string
case, so no coercion ever happens. -/
theorem number_exact_type_or_default (d : Value) (n : JSNum) (s : String) (b : Bool)
    (xs : List Value) (fs : List (String × Value)) (t : Nat) :
    number d (.num n) = .num n
  ∧ number d (.str s) = d
  ∧ number d (.bool b) = d
  ∧ number d .undefined = d
  ∧ number d .null = d
  ∧ number d (.arr xs) = d
  ∧ number d (.obj fs) = d
  ∧ number d (.jsset xs) = d
  ∧ number d (.fn t) = d :=
  ⟨rfl, rfl, rfl, rfl, rfl, rfl, rfl, rfl, rfl⟩

/-- C9: record(spec) is idempotent on every input once every field
validator is idempotent.  The spec field names are assumed distinct, as
the JS object literal that carries a spec makes them by construction. -/
theorem record_idempotent (spec : List (String × (Value → Value))) (x : Value)
    (hnd : (spec.map Prod.fst).Nodup)
    (hid : ∀ p ∈ spec, ∀ y, p.2 (p.2 y) = p.2 y) :
    record spec (record spec x) = record spec x := by
  have hsrc : sourceFields (record spec x)
      = spec.map (fun q => (q.1, q.2 (getField (sourceFields x) q.1))) := rfl
  show Value.obj _ = Value.obj _
  congr 1
  refine List.map_congr_left (fun p hp => ?_)
  rw [hsrc, getField_map_spec spec _ hnd p hp, hid p hp]

/-- Witness for C9 at a concrete spec and input. -/
theorem record_idempotent_check :
    record [("a", number (.num (.int 1)))]
        (record [("a", number (.num (.int 1)))] (.obj [("a", .str "x")]))
      = record [("a", number (.num (.int 1)))] (.obj [("a", .str "x")]) :=
  record_idempotent [("a", number (.num (.int 1)))] (.obj [("a", .str "x")])
    (by decide)
    (by
      intro p hp y
      have hp2 : p = ("a", number (.num (.int 1))) := by simpa using hp
      rw [hp2]
      cases y <;> rfl)

/-- C10: the set combinator maps itemCheck over an array input and
returns the results as an array deduplicated by value equality in
first-occurrence order, so in particular an undefined result is retained
as an element; on every non-array input, enumerated by the remaining
value constructors, it returns the empty array. -/
theorem set_dedups_first_occurrence (ic : Value → Value) (xs : List Value)
    (fs : List (String × Value)) (n : JSNum) (s : String) (b : Bool) (t : Nat) :
    set ic (.arr xs) = .arr (dedupFirst (xs.map ic))
  ∧ set ic .undefined = .arr []
  ∧ set ic .null = .arr []
  ∧ set ic (.bool b) = .arr []
  ∧ set ic (.num n) = .arr []
  ∧ set ic (.str s) = .arr []
  ∧ set ic (.obj fs) = .arr []
  ∧ set ic (.jsset xs) = .arr []
  ∧ set ic (.fn t) = .arr [] := by
  refine ⟨?_, rfl, rfl, rfl, rfl, rfl, rfl, rfl, rfl⟩
  show Value.arr (xs.foldl (fun out value => jsAdd out (ic value)) []) = _
  rw [← List.foldl_map, foldl_jsAdd_dedup]
  have hfil : (xs.map ic).filter (fun y => decide (y ∉ ([] : List Value))) = xs.map ic := by
    simp
  rw [hfil]
  simp

end Shapes
